import Mathlib

/-!
Shallow embedding of the bloom-filter pre-filter from `src/index/bloom.rs`
(`Segment` and `BloomCache`), together with theorems checking the
specification's claims about it.

Bytes are modelled as `Fin 256` (Rust `u8`), 16-bit values as `Fin 65536`
(Rust `u16`), machine sizes as `Nat`, and the signed `acceptance_radius`
(`i32`) as `Int`; the `as usize` cast is modelled explicitly modulo `2 ^ 64`.
-/

namespace FaissBloom

/-- Rust `u8`. -/
abbrev U8 := Fin 256

/-- Rust `u16`. -/
abbrev U16 := Fin 65536

/-- Byte offset computed by `Segment::get` and `Segment::set`: `index / 8`. -/
def byteOffset (v : U16) : Nat := v.val / 8

/-- Bit offset computed by `Segment::get` and `Segment::set`: `7 - (index % 8)`. -/
def bitOffset (v : U16) : Nat := 7 - v.val % 8

/-- `Segment`: the 8192-byte bitmap `data: Box<[u8; 8192]>`. `data i` is the
byte stored at offset `i`; offsets `>= 8192` are never touched by the code. -/
structure Segment where
  data : Nat → Nat

/-- `Segment::default` / `Segment::empty`: every byte is `0`. -/
def Segment.empty : Segment := ⟨fun _ => 0⟩

/-- `Segment::get`: `byte & (1 << bit_offset) != 0`. -/
def Segment.get (s : Segment) (v : U16) : Bool :=
  s.data (byteOffset v) &&& (1 <<< bitOffset v) != 0

/-- `Segment::set`: `*byte |= 1 << bit_offset`. -/
def Segment.set (s : Segment) (v : U16) : Segment :=
  ⟨fun i => if i = byteOffset v then s.data i ||| (1 <<< bitOffset v) else s.data i⟩

/-- A sequence of `Segment::set` calls, in order. -/
def Segment.setList (s : Segment) (l : List U16) : Segment :=
  l.foldl Segment.set s

/-- `u16::from_be_bytes` on a 2-byte chunk. -/
def fromBeBytes (c : U8 × U8) : U16 :=
  ⟨c.1.val * 256 + c.2.val, by
    have h1 := c.1.isLt
    have h2 := c.2.isLt
    omega⟩

/-- `slice::chunks_exact(2)` fused with the always-successful `[u8; 2]`
conversion: the list of complete 2-byte chunks, the trailing partial chunk
(if any) dropped. -/
def chunksExact2 {α : Type} : List α → List (α × α)
  | [] => []
  | [_] => []
  | a :: b :: rest => (a, b) :: chunksExact2 rest

/-- `slice::chunks_exact(2)` as it is before conversion: each complete chunk
as a raw 2-element slice. -/
def chunksExactRaw {α : Type} : List α → List (List α)
  | [] => []
  | [_] => []
  | a :: b :: rest => [a, b] :: chunksExactRaw rest

/-- `TryInto<[u8; 2]>` for a slice: succeeds exactly on length-2 slices. -/
def tryIntoPair {α : Type} : List α → Option (α × α)
  | [a, b] => some (a, b)
  | _ => none

/-- `BloomCache`: the ordered segments and the vector count `size`. -/
structure BloomCache where
  segments : List Segment
  size : Nat

/-- `BloomCache::new`. -/
def BloomCache.new (num_segments : Nat) : BloomCache :=
  ⟨List.replicate num_segments Segment.empty, 0⟩

/-- One iteration of the `BloomCache::add` loop: chunk number `k` (drawn from
the cycling index iterator, hence reduced `mod segments.len()`) has its 16-bit
value recorded in that segment. `List.set` out of range is a no-op, matching
the `if let Some(segment) = self.segments.get_mut(..)` guard. -/
def applyChunk (segs : List Segment) (k : Nat) (c : U8 × U8) : List Segment :=
  segs.set (k % segs.length)
    ((segs.getD (k % segs.length) Segment.empty).set (fromBeBytes c))

/-- The `BloomCache::add` loop over the chunk list, `k` the running chunk
index fed by `(0..self.segments.len()).cycle()`. -/
def setChunks : List (U8 × U8) → Nat → List Segment → List Segment
  | [], _, segs => segs
  | c :: rest, k, segs => setChunks rest (k + 1) (applyChunk segs k c)

/-- `BloomCache::add`. -/
def BloomCache.add (c : BloomCache) (vectors : List U8) : BloomCache :=
  ⟨setChunks (chunksExact2 vectors) 0 c.segments, c.size + 1⟩

/-- The 64-bit `as usize` cast applied to an `i32` value. -/
def usizeOfI32 (r : Int) : Nat := (r % (2 ^ 64 : Int)).toNat

/-- The scan loop of `BloomCache::should_reject` over the positionally paired
(chunk, segment) list, carrying the running `misses` counter. -/
def missScan (r : Int) : List ((U8 × U8) × Segment) → Int → Bool
  | [], _ => false
  | p :: rest, misses =>
    if p.2.get (fromBeBytes p.1) then missScan r rest misses
    else if misses + 1 > r then true
    else missScan r rest (misses + 1)

/-- `BloomCache::should_reject`. -/
def BloomCache.should_reject (c : BloomCache) (query : List U8)
    (acceptance_radius : Int) : Bool :=
  if usizeOfI32 acceptance_radius ≥ c.segments.length then false
  else missScan acceptance_radius ((chunksExact2 query).zip c.segments) 0

/-- `BloomCache::reset`: `self.segments.clear(); self.size = 0;`. -/
def BloomCache.reset (_c : BloomCache) : BloomCache := ⟨[], 0⟩

/-- `BloomCache::len`. -/
def BloomCache.len (c : BloomCache) : Nat := c.size

/-- `BloomCache::is_empty`. -/
def BloomCache.is_empty (c : BloomCache) : Bool := c.size == 0

/-- The segment observed at slot `j` (an empty segment when out of range). -/
def getAt (segs : List Segment) (j : Nat) (w : U16) : Bool :=
  (segs.getD j Segment.empty).get w

/-- Number of paired chunks whose 16-bit value is not recorded in the segment
they are paired with. -/
def countMisses (l : List ((U8 × U8) × Segment)) : Nat :=
  l.countP fun p => !(p.2.get (fromBeBytes p.1))

/-- Number of chunk slots at which two vectors hold different 16-bit values. -/
def chunkDist (v q : List U8) : Nat :=
  ((chunksExact2 v).zip (chunksExact2 q)).countP
    fun p => fromBeBytes p.1 != fromBeBytes p.2

lemma get_eq_testBit (s : Segment) (v : U16) :
    s.get v = (s.data (byteOffset v)).testBit (bitOffset v) := by
  unfold Segment.get
  rw [Nat.one_shiftLeft, Nat.and_two_pow]
  cases h : (s.data (byteOffset v)).testBit (bitOffset v) <;>
    simp [h, (Nat.two_pow_pos _).ne']

lemma get_empty (v : U16) : Segment.empty.get v = false := by
  simp [Segment.get, Segment.empty]

lemma offset_inj (v w : U16) (hb : byteOffset v = byteOffset w)
    (ht : bitOffset v = bitOffset w) : v = w := by
  unfold byteOffset at hb
  unfold bitOffset at ht
  have h1 := v.isLt
  have h2 := w.isLt
  apply Fin.ext
  omega

lemma get_set (s : Segment) (v w : U16) :
    (s.set v).get w = ((v == w) || s.get w) := by
  rw [get_eq_testBit, get_eq_testBit]
  show Nat.testBit
    (if byteOffset w = byteOffset v then
        s.data (byteOffset w) ||| (1 <<< bitOffset v)
      else s.data (byteOffset w)) (bitOffset w) = _
  by_cases hb : byteOffset w = byteOffset v
  · rw [if_pos hb, Nat.one_shiftLeft, Nat.testBit_or, Nat.testBit_two_pow]
    by_cases hvw : v = w
    · subst hvw
      simp
    · have hbit : bitOffset v ≠ bitOffset w := by
        intro ht
        exact hvw (offset_inj v w hb.symm ht)
      have hbeq : (v == w) = false := by
        simpa using hvw
      simp [hbit, hbeq]
  · rw [if_neg hb]
    have hvw : v ≠ w := by
      intro h
      exact hb (by rw [h])
    have hbeq : (v == w) = false := by
      simpa using hvw
    simp [hbeq]

lemma get_set_iff (s : Segment) (v w : U16) :
    (s.set v).get w = true ↔ v = w ∨ s.get w = true := by
  rw [get_set]
  simp

lemma set_idem (s : Segment) (v : U16) : (s.set v).set v = s.set v := by
  unfold Segment.set
  simp only [Segment.mk.injEq]
  funext i
  by_cases h : i = byteOffset v
  · simp [h, Nat.or_assoc, Nat.or_self]
  · simp [h]

lemma get_setList (l : List U16) : ∀ (s : Segment) (w : U16),
    (s.setList l).get w = true ↔ s.get w = true ∨ w ∈ l := by
  induction l with
  | nil => intro s w; simp [Segment.setList]
  | cons x xs ih =>
    intro s w
    show ((s.set x).setList xs).get w = true ↔ _
    rw [ih, get_set_iff]
    constructor
    · rintro ((h | h) | h)
      · exact Or.inr (by simp [h])
      · exact Or.inl h
      · exact Or.inr (by simp [h])
    · rintro (h | h)
      · exact Or.inl (Or.inr h)
      · rcases List.mem_cons.mp h with h | h
        · exact Or.inl (Or.inl h.symm)
        · exact Or.inr h

lemma length_applyChunk (segs : List Segment) (k : Nat) (c : U8 × U8) :
    (applyChunk segs k c).length = segs.length := by
  simp [applyChunk]

lemma length_setChunks : ∀ (chunks : List (U8 × U8)) (k : Nat)
    (segs : List Segment), (setChunks chunks k segs).length = segs.length
  | [], _, _ => rfl
  | c :: rest, k, segs => by
    rw [setChunks, length_setChunks rest (k + 1) _, length_applyChunk]

lemma getAt_applyChunk (segs : List Segment) (k : Nat) (c : U8 × U8)
    (j : Nat) (w : U16) :
    getAt (applyChunk segs k c) j w = true ↔
      getAt segs j w = true ∨
        (0 < segs.length ∧ k % segs.length = j ∧ fromBeBytes c = w) := by
  unfold getAt applyChunk
  rcases Nat.eq_zero_or_pos segs.length with hlen | hlen
  · obtain rfl := List.length_eq_zero.mp hlen
    simp [get_empty]
  · have hk : k % segs.length < segs.length := Nat.mod_lt _ hlen
    by_cases hj : j = k % segs.length
    · subst hj
      simp only [List.getD_eq_getElem?_getD, List.getElem?_set_self hk,
        Option.getD_some]
      rw [get_set_iff]
      constructor
      · rintro (h | h)
        · exact Or.inr ⟨hlen, by trivial, h⟩
        · exact Or.inl h
      · rintro (h | ⟨h1, h2, h3⟩)
        · exact Or.inr h
        · exact Or.inl h3
    · simp only [List.getD_eq_getElem?_getD,
        List.getElem?_set_ne (fun h => hj h.symm)]
      constructor
      · exact fun h => Or.inl h
      · rintro (h | ⟨h1, h2, h3⟩)
        · exact h
        · exact absurd h2.symm hj

lemma getAt_setChunks : ∀ (chunks : List (U8 × U8)) (k : Nat)
    (segs : List Segment) (j : Nat) (w : U16),
    getAt (setChunks chunks k segs) j w = true ↔
      getAt segs j w = true ∨
        ∃ i ch, chunks[i]? = some ch ∧ 0 < segs.length ∧
          (k + i) % segs.length = j ∧ fromBeBytes ch = w
  | [], k, segs, j, w => by simp [setChunks]
  | c :: rest, k, segs, j, w => by
    rw [setChunks, getAt_setChunks rest (k + 1) _ j w]
    simp only [length_applyChunk]
    rw [getAt_applyChunk]
    constructor
    · rintro ((h | ⟨hpos, hk, hc⟩) | ⟨i, ch, h1, hpos, h2, h3⟩)
      · exact Or.inl h
      · exact Or.inr ⟨0, c, by simp, hpos, by simpa using hk, hc⟩
      · refine Or.inr ⟨i + 1, ch, by simpa using h1, hpos, ?_, h3⟩
        have harith : k + 1 + i = k + (i + 1) := by omega
        rwa [harith] at h2
    · rintro (h | ⟨i, ch, h1, hpos, h2, h3⟩)
      · exact Or.inl (Or.inl h)
      · cases i with
        | zero =>
          rw [List.getElem?_cons_zero, Option.some_inj] at h1
          subst h1
          exact Or.inl (Or.inr ⟨hpos, by simpa using h2, h3⟩)
        | succ i =>
          refine Or.inr ⟨i, ch, by simpa using h1, hpos, ?_, h3⟩
          have harith : k + 1 + i = k + (i + 1) := by omega
          rw [harith]
          exact h2

lemma getAt_setChunks_mono (chunks : List (U8 × U8)) (k : Nat)
    (segs : List Segment) (j : Nat) (w : U16)
    (h : getAt segs j w = true) :
    getAt (setChunks chunks k segs) j w = true :=
  (getAt_setChunks chunks k segs j w).mpr (Or.inl h)

lemma missScan_eq (r : Int) : ∀ (l : List ((U8 × U8) × Segment)) (m : Int),
    m ≤ r → missScan r l m = decide (m + (countMisses l : Int) > r)
  | [], m, hm => by
    simp only [missScan, countMisses, List.countP_nil, Nat.cast_zero,
      add_zero, gt_iff_lt]
    symm
    simp only [decide_eq_false_iff_not, not_lt]
    exact hm
  | p :: rest, m, hm => by
    by_cases hp : p.2.get (fromBeBytes p.1)
    · have hcnt : countMisses (p :: rest) = countMisses rest := by
        simp [countMisses, List.countP_cons, hp]
      simp only [missScan]
      rw [if_pos hp, missScan_eq r rest m hm, hcnt]
    · have hcnt : countMisses (p :: rest) = countMisses rest + 1 := by
        simp [countMisses, List.countP_cons, hp]
      simp only [missScan]
      rw [if_neg hp]
      by_cases hm1 : m + 1 > r
      · rw [if_pos hm1, hcnt]
        symm
        rw [decide_eq_true_eq]
        push_cast
        omega
      · rw [if_neg hm1, hcnt, missScan_eq r rest (m + 1) (by omega)]
        rw [decide_eq_decide]
        push_cast
        omega

lemma should_reject_eq (c : BloomCache) (q : List U8) (r : Int) (hr : 0 ≤ r) :
    c.should_reject q r =
      (decide (usizeOfI32 r < c.segments.length) &&
        decide ((countMisses ((chunksExact2 q).zip c.segments) : Int) > r)) := by
  unfold BloomCache.should_reject
  by_cases h : usizeOfI32 r ≥ c.segments.length
  · rw [if_pos h]
    have hd : decide (usizeOfI32 r < c.segments.length) = false := by
      simp only [decide_eq_false_iff_not, not_lt]
      exact h
    rw [hd, Bool.false_and]
  · rw [if_neg h, missScan_eq r _ 0 hr, zero_add]
    have hd : decide (usizeOfI32 r < c.segments.length) = true := by
      simp only [decide_eq_true_eq]
      omega
    rw [hd, Bool.true_and]

lemma chunksExact2_length {α : Type} : ∀ l : List α,
    (chunksExact2 l).length = l.length / 2
  | [] => by simp [chunksExact2]
  | [_] => by simp [chunksExact2]
  | _ :: _ :: rest => by
    simp only [chunksExact2, List.length_cons, chunksExact2_length rest]
    omega

lemma chunksExact2_dropLast {α : Type} : ∀ l : List α, l.length % 2 = 1 →
    chunksExact2 l.dropLast = chunksExact2 l
  | [], h => by simp at h
  | [_], _ => rfl
  | a :: b :: rest, h => by
    have hr : rest.length % 2 = 1 := by
      simp only [List.length_cons] at h
      omega
    have hne : rest ≠ [] := by
      intro he
      rw [he] at hr
      simp at hr
    rw [List.dropLast_cons₂, List.dropLast_cons_of_ne_nil hne]
    show (a, b) :: chunksExact2 rest.dropLast = (a, b) :: chunksExact2 rest
    rw [chunksExact2_dropLast rest hr]

lemma countMisses_zip_le : ∀ (qs vs : List (U8 × U8)) (segs : List Segment),
    qs.length = vs.length → qs.length = segs.length →
    (∀ k, k < qs.length →
        fromBeBytes (qs.getD k ((0 : U8), (0 : U8))) =
          fromBeBytes (vs.getD k ((0 : U8), (0 : U8))) →
        (segs.getD k Segment.empty).get
          (fromBeBytes (qs.getD k ((0 : U8), (0 : U8)))) = true) →
    countMisses (qs.zip segs) ≤
      (vs.zip qs).countP (fun p => fromBeBytes p.1 != fromBeBytes p.2)
  | [], _, _, _, _, _ => by simp [countMisses]
  | q :: qs, [], segs, h1, _, _ => by simp at h1
  | q :: qs, v :: vs, [], _, h2, _ => by simp at h2
  | q :: qs, v :: vs, s :: segs, h1, h2, H => by
    have h1t : qs.length = vs.length := by simpa using h1
    have h2t : qs.length = segs.length := by simpa using h2
    have Ht : ∀ k, k < qs.length →
        fromBeBytes (qs.getD k ((0 : U8), (0 : U8))) =
          fromBeBytes (vs.getD k ((0 : U8), (0 : U8))) →
        (segs.getD k Segment.empty).get
          (fromBeBytes (qs.getD k ((0 : U8), (0 : U8)))) = true := by
      intro k hk he
      exact H (k + 1) (by simpa using Nat.succ_lt_succ hk) (by simpa using he)
    have IH := countMisses_zip_le qs vs segs h1t h2t Ht
    simp only [List.zip_cons_cons, countMisses, List.countP_cons] at IH ⊢
    by_cases hqv : fromBeBytes q = fromBeBytes v
    · have hget : s.get (fromBeBytes v) = true := by
        have h0 := H 0 (by simp) (by simpa using hqv)
        simp only [List.getD_cons_zero] at h0
        rw [hqv] at h0
        exact h0
      simp only [hqv, hget, Bool.not_true, bne_self_eq_false, Bool.false_eq_true,
        if_false, Nat.add_zero]
      exact IH
    · have hne : (fromBeBytes v != fromBeBytes q) = true := by
        simp only [bne_iff_ne, ne_eq]
        exact fun h => hqv h.symm
      cases hmiss : s.get (fromBeBytes q) with
      | true =>
        simp only [hne, hmiss, Bool.not_true, Bool.false_eq_true, if_false,
          if_true, Nat.add_zero]
        omega
      | false =>
        simp only [hne, hmiss, Bool.not_false, if_true]
        omega

lemma add_segments_length (c : BloomCache) (buf : List U8) :
    (c.add buf).segments.length = c.segments.length := by
  show (setChunks (chunksExact2 buf) 0 c.segments).length = _
  rw [length_setChunks]

lemma foldl_add_segments_length : ∀ (bufs : List (List U8)) (c : BloomCache),
    (List.foldl BloomCache.add c bufs).segments.length = c.segments.length
  | [], _ => rfl
  | b :: bs, c => by
    rw [List.foldl_cons, foldl_add_segments_length bs _, add_segments_length]

lemma add_getAt_mono (c : BloomCache) (buf : List U8) (j : Nat) (w : U16)
    (h : getAt c.segments j w = true) :
    getAt (c.add buf).segments j w = true :=
  getAt_setChunks_mono _ 0 _ j w h

lemma foldl_add_getAt_mono : ∀ (bufs : List (List U8)) (c : BloomCache)
    (j : Nat) (w : U16), getAt c.segments j w = true →
    getAt (List.foldl BloomCache.add c bufs).segments j w = true
  | [], _, _, _, h => h
  | b :: bs, c, j, w, h => by
    rw [List.foldl_cons]
    exact foldl_add_getAt_mono bs _ j w (add_getAt_mono c b j w h)

lemma add_records_chunks (c : BloomCache) (v : List U8) (k : Nat)
    (hk : k < c.segments.length)
    (hv : v.length = 2 * c.segments.length) :
    getAt (c.add v).segments k
      (fromBeBytes ((chunksExact2 v).getD k ((0 : U8), (0 : U8)))) = true := by
  have hlen : (chunksExact2 v).length = c.segments.length := by
    rw [chunksExact2_length, hv]
    omega
  have hklt : k < (chunksExact2 v).length := by omega
  show getAt (setChunks (chunksExact2 v) 0 c.segments) k _ = true
  apply (getAt_setChunks _ 0 _ k _).mpr
  refine Or.inr ⟨k, (chunksExact2 v).getD k ((0 : U8), (0 : U8)), ?_, by omega,
    ?_, rfl⟩
  · rw [List.getElem?_eq_getElem hklt, Option.some_inj,
      List.getD_eq_getElem?_getD, List.getElem?_eq_getElem hklt,
      Option.getD_some]
  · show (0 + k) % c.segments.length = k
    rw [Nat.zero_add]
    exact Nat.mod_eq_of_lt hk

lemma chunksExactRaw_lengths {α : Type} : ∀ l : List α,
    ((chunksExactRaw l).all fun c => c.length == 2) = true
  | [] => rfl
  | [_] => rfl
  | _ :: _ :: rest => by
    simp only [chunksExactRaw, List.all_cons, chunksExactRaw_lengths rest]
    rfl

lemma chunksExactRaw_tryInto {α : Type} : ∀ l : List α,
    (chunksExactRaw l).map tryIntoPair = (chunksExact2 l).map some
  | [] => rfl
  | [_] => rfl
  | a :: b :: rest => by
    simp only [chunksExactRaw, chunksExact2, List.map_cons,
      chunksExactRaw_tryInto rest]
    rfl

/-- C1: No false rejection (soundness). For every cache state reachable by
further add calls after a vector v was supplied to a single add call as a
buffer of exactly 2 * num_segments bytes, every query q of the same width,
and every non-negative i32 acceptance radius r: if v differs from q in at
most r of its 16-bit chunk slots, then should_reject q r returns false. -/
theorem no_false_rejection (c0 : BloomCache) (v : List U8)
    (bufs : List (List U8)) (q : List U8) (r : Int)
    (hv : v.length = 2 * c0.segments.length)
    (hq : q.length = 2 * c0.segments.length)
    (hr0 : 0 ≤ r) (hr1 : r < 2 ^ 31)
    (hd : (chunkDist v q : Int) ≤ r) :
    (List.foldl BloomCache.add (c0.add v) bufs).should_reject q r = false := by
  set c2 := List.foldl BloomCache.add (c0.add v) bufs with hc2
  have hlen2 : c2.segments.length = c0.segments.length := by
    rw [hc2, foldl_add_segments_length, add_segments_length]
  by_cases hg : usizeOfI32 r ≥ c2.segments.length
  · unfold BloomCache.should_reject
    rw [if_pos hg]
  · rw [should_reject_eq c2 q r hr0]
    have hqs : (chunksExact2 q).length = c0.segments.length := by
      rw [chunksExact2_length, hq]
      omega
    have hvs : (chunksExact2 v).length = c0.segments.length := by
      rw [chunksExact2_length, hv]
      omega
    have hcnt : countMisses ((chunksExact2 q).zip c2.segments) ≤ chunkDist v q := by
      unfold chunkDist
      apply countMisses_zip_le (chunksExact2 q) (chunksExact2 v) c2.segments
        (by omega) (by omega)
      intro k hk hkeq
      have hk0 : k < c0.segments.length := by omega
      have hrec := add_records_chunks c0 v k hk0 hv
      have hmono := foldl_add_getAt_mono bufs (c0.add v) k
        (fromBeBytes ((chunksExact2 v).getD k ((0 : U8), (0 : U8)))) hrec
      rw [hkeq]
      exact hmono
    have hdec : decide ((countMisses ((chunksExact2 q).zip c2.segments) : Int) > r)
        = false := by
      simp only [gt_iff_lt, decide_eq_false_iff_not, not_lt]
      omega
    rw [hdec, Bool.and_false]

/-- C1 witness at a concrete input: one segment, vector [0, 1] added, the
identical query accepted at radius 0. -/
theorem no_false_rejection_witness :
    (List.foldl BloomCache.add ((BloomCache.new 1).add [0, 1]) []).should_reject
      [0, 1] 0 = false :=
  no_false_rejection (BloomCache.new 1) [0, 1] [] [0, 1] 0 (by decide)
    (by decide) (by decide) (by decide) (by decide)

/-- C2 counterexample: reset does not preserve the segment count. A cache
built with one segment has zero segments after reset, because reset calls
segments.clear(). -/
theorem reset_count_counterexample :
    ¬ ((BloomCache.new 1).reset.segments.length =
        (BloomCache.new 1).segments.length) := by
  decide

/-- C2 amended: reset() discards the segments entirely (the segment sequence
becomes empty, so the segment count drops to 0 rather than being preserved)
and sets the vector count to zero. -/
theorem reset_clears_cache (c : BloomCache) :
    c.reset.segments = [] ∧ c.reset.len = 0 :=
  ⟨rfl, rfl⟩

/-- C3: should_reject pairs 2-byte big-endian query chunk k with Segment k
positionally up to the shorter of the two lengths, and, once the radius
guard admits scanning, the short-circuiting scan returns true exactly when
the number of paired chunks whose value is unrecorded exceeds the radius,
false otherwise. -/
theorem should_reject_characterization (c : BloomCache) (q : List U8)
    (r : Int) (hr : 0 ≤ r) (hr2 : r < 2 ^ 31 - 1) :
    c.should_reject q r =
      (decide (usizeOfI32 r < c.segments.length) &&
        decide ((countMisses ((chunksExact2 q).zip c.segments) : Int) > r))
    ∧ ((chunksExact2 q).zip c.segments).length =
        min (chunksExact2 q).length c.segments.length :=
  ⟨should_reject_eq c q r hr, List.length_zip (chunksExact2 q) c.segments⟩

/-- C3 witness at a concrete input: an all-empty one-segment cache rejects
the query [0, 0] at radius 0, matching the full miss count. -/
theorem should_reject_characterization_witness :
    ((BloomCache.new 1).should_reject [0, 0] 0 =
      (decide (usizeOfI32 0 < (BloomCache.new 1).segments.length) &&
        decide ((countMisses ((chunksExact2 [(0 : U8), 0]).zip
          (BloomCache.new 1).segments) : Int) > 0)))
    ∧ ((chunksExact2 [(0 : U8), 0]).zip (BloomCache.new 1).segments).length =
        min (chunksExact2 [(0 : U8), 0]).length
          (BloomCache.new 1).segments.length :=
  should_reject_characterization (BloomCache.new 1) [0, 0] 0 (by decide)
    (by decide)

/-- C4: Large-radius vacuity: whenever the non-negative i32 radius r is at
least the segment count, should_reject returns false, for any query; with
zero segments this holds for every non-negative radius. -/
theorem large_radius_vacuous (c : BloomCache) (q : List U8) (r : Int)
    (h0 : 0 ≤ r) (h1 : r < 2 ^ 31)
    (h2 : (c.segments.length : Int) ≤ r) :
    c.should_reject q r = false := by
  have hg : usizeOfI32 r ≥ c.segments.length := by
    unfold usizeOfI32
    have hp64 : (2 : Int) ^ 64 = 18446744073709551616 := by norm_num
    have hp31 : (2 : Int) ^ 31 = 2147483648 := by norm_num
    rw [hp64]
    rw [hp31] at h1
    omega
  unfold BloomCache.should_reject
  rw [if_pos hg]

/-- C4 witness at a concrete input: three segments, radius 5. -/
theorem large_radius_vacuous_witness :
    (BloomCache.new 3).should_reject [] 5 = false :=
  large_radius_vacuous (BloomCache.new 3) [] 5 (by decide) (by decide)
    (by decide)

/-- C5: add splits the buffer into consecutive 2-byte big-endian chunks and
records chunk k in the (k mod num_segments)-th Segment: a bit is set in
slot j afterwards iff it was set before or some chunk with index congruent
to j carries that value; a trailing odd byte is dropped, not rejected. -/
theorem add_cyclic_assignment (c : BloomCache) (buf : List U8) (j : Nat)
    (w : U16) (hn : 0 < c.segments.length) :
    (getAt (c.add buf).segments j w = true ↔
      getAt c.segments j w = true ∨
        ∃ i ch, (chunksExact2 buf)[i]? = some ch ∧
          i % c.segments.length = j ∧ fromBeBytes ch = w)
    ∧ (buf.length % 2 = 1 → c.add buf = c.add buf.dropLast) := by
  constructor
  · show getAt (setChunks (chunksExact2 buf) 0 c.segments) j w = true ↔ _
    rw [getAt_setChunks]
    constructor
    · rintro (h | ⟨i, ch, hi1, _, hi2, hi3⟩)
      · exact Or.inl h
      · exact Or.inr ⟨i, ch, hi1, by simpa using hi2, hi3⟩
    · rintro (h | ⟨i, ch, hi1, hi2, hi3⟩)
      · exact Or.inl h
      · exact Or.inr ⟨i, ch, hi1, hn, by simpa using hi2, hi3⟩
  · intro hodd
    unfold BloomCache.add
    rw [chunksExact2_dropLast buf hodd]

/-- C5 witness at a concrete input: a one-segment cache and the odd-length
buffer [0, 1, 2]: the trailing byte is dropped, and chunk 0 with value
0x0001 lands in segment 0 mod 1 = 0. -/
theorem add_cyclic_assignment_witness :
    ((BloomCache.new 1).add [0, 1, 2] =
        (BloomCache.new 1).add ([(0 : U8), 1, 2].dropLast))
    ∧ getAt ((BloomCache.new 1).add [0, 1, 2]).segments 0
        (fromBeBytes (0, 1)) = true :=
  ⟨(add_cyclic_assignment (BloomCache.new 1) [0, 1, 2] 0 (fromBeBytes (0, 1))
      (by decide)).2 (by decide),
   (add_cyclic_assignment (BloomCache.new 1) [0, 1, 2] 0 (fromBeBytes (0, 1))
      (by decide)).1.mpr (Or.inr ⟨0, (0, 1), by decide, by decide, rfl⟩)⟩

/-- C6: Monotonic population: add never clears a previously set bit; any
16-bit value reported set at some slot before an add call is still reported
set after it. -/
theorem add_never_clears_bits (c : BloomCache) (buf : List U8) (j : Nat)
    (w : U16) (h : getAt c.segments j w = true) :
    getAt (c.add buf).segments j w = true :=
  add_getAt_mono c buf j w h

/-- C6 witness at a concrete input: value 5 recorded in slot 0 survives a
subsequent add of a different buffer. -/
theorem add_never_clears_bits_witness :
    getAt (((BloomCache.new 1).add [0, 5]).add [7, 7]).segments 0 5 = true :=
  add_never_clears_bits ((BloomCache.new 1).add [0, 5]) [7, 7] 0 5 (by decide)

/-- C7: every add call increments the vector count reported by len by
exactly one, regardless of the buffer passed. -/
theorem add_increments_len (c : BloomCache) (vectors : List U8) :
    (c.add vectors).len = c.len + 1 :=
  rfl

/-- C8: Segment bit round-trip: a fresh Segment reports every value unset;
after set(v), get(v) holds; set is idempotent; setting v leaves every other
value unchanged; and after any sequence of set calls the values reported
set are exactly the deduplicated values passed. -/
theorem segment_bit_roundtrip (v w : U16) (s : Segment) (l : List U16) :
    Segment.empty.get v = false
    ∧ (s.set v).get v = true
    ∧ (s.set v).set v = s.set v
    ∧ (v ≠ w → (s.set v).get w = s.get w)
    ∧ ((Segment.setList Segment.empty l).get w = true ↔ w ∈ l) := by
  refine ⟨get_empty v, ?_, set_idem s v, ?_, ?_⟩
  · rw [get_set]
    simp
  · intro hvw
    rw [get_set]
    have hbeq : (v == w) = false := by simpa using hvw
    rw [hbeq, Bool.false_or]
  · rw [get_setList l Segment.empty w, get_empty]
    simp

/-- C8 witness at a concrete input: setting 0 does not disturb value 1, and
value 5 is reported set exactly because it was passed to set. -/
theorem segment_bit_roundtrip_witness :
    ((Segment.empty.set 0).get 1 = Segment.empty.get 1)
    ∧ (Segment.setList Segment.empty [5]).get 5 = true :=
  ⟨(segment_bit_roundtrip 0 1 Segment.empty [5]).2.2.2.1 (by decide),
   (segment_bit_roundtrip 0 5 Segment.empty [5]).2.2.2.2.mpr (by decide)⟩

/-- C9: a negative i32 acceptance radius is cast to usize before the guard
comparison, so it compares at least as large as any reachable segment count
(every real segment vector is far below 2^64 - 2^31 entries) and
should_reject returns false without scanning. -/
theorem negative_radius_pass (c : BloomCache) (q : List U8) (r : Int)
    (h0 : -(2 ^ 31) ≤ r) (h1 : r < 0)
    (h2 : c.segments.length < 2 ^ 64 - 2 ^ 31) :
    c.should_reject q r = false := by
  have hg : usizeOfI32 r ≥ c.segments.length := by
    unfold usizeOfI32
    have hp64 : (2 : Int) ^ 64 = 18446744073709551616 := by norm_num
    have hp31 : (2 : Int) ^ 31 = 2147483648 := by norm_num
    rw [hp64]
    rw [hp31] at h0
    have hn64 : (2 : Nat) ^ 64 = 18446744073709551616 := by norm_num
    have hn31 : (2 : Nat) ^ 31 = 2147483648 := by norm_num
    rw [hn64, hn31] at h2
    omega
  unfold BloomCache.should_reject
  rw [if_pos hg]

/-- C9 witness at a concrete input: radius -1 against a two-segment cache. -/
theorem negative_radius_pass_witness :
    (BloomCache.new 2).should_reject [] (-1) = false :=
  negative_radius_pass (BloomCache.new 2) [] (-1) (by decide) (by decide)
    (by decide)

/-- C10: totality of the public interface: the byte offset is always within
the 8192-byte bitmap and the bit offset subtraction never underflows, for
every 16-bit value; and every slice produced by chunks_exact(2) has length
exactly 2, so the TryInto conversions in add and should_reject always
succeed. -/
theorem no_panic_bounds (v : U16) (l : List U8) :
    byteOffset v < 8192
    ∧ v.val % 8 ≤ 7
    ∧ ((chunksExactRaw l).all fun c => c.length == 2) = true
    ∧ (chunksExactRaw l).map tryIntoPair = (chunksExact2 l).map some := by
  refine ⟨?_, by omega, chunksExactRaw_lengths l, chunksExactRaw_tryInto l⟩
  have hlt := v.isLt
  unfold byteOffset
  omega

end FaissBloom
